import Mathlib

/-!
Shallow embedding of the feed-forward neural-network trainer from
`src/activation.rs` and `src/network.rs`: the activation-function family,
layers, forward evaluation, and the backpropagation training step.
`f64` values are modelled by `ℝ`; an auxiliary IEEE-style extended type
`F64` models the non-finite results of `Sigmoid::backward` outside `(0,1)`.
-/

namespace FFNN

/-- Serializable activation tag (`ActivationFnInfo` in `src/activation.rs`):
`Identity`, `Sigmoid`, or `DebugPrint { output, activation }` with a nested tag. -/
inductive ActivationFnInfo : Type where
  | identity : ActivationFnInfo
  | sigmoid : ActivationFnInfo
  | debugPrint (output : String) (activation : ActivationFnInfo) : ActivationFnInfo
deriving DecidableEq

/-- The closed family of `ActivationFn` trait implementors in
`src/activation.rs`: `Identity`, `Sigmoid`, and `DebugPrint` (a label plus a
wrapped activation). -/
inductive ActivationFn : Type where
  | identity : ActivationFn
  | sigmoid : ActivationFn
  | debugPrint (output : String) (activation : ActivationFn) : ActivationFn
deriving DecidableEq

noncomputable section

/-- Rust `ActivationFn::forward` of each implementor; `DebugPrint` delegates to the
wrapped function (its logging side effect does not alter the numeric result). -/
def ActivationFn.forward : ActivationFn → ℝ → ℝ
  | .identity, x => x
  | .sigmoid, x => 1 / (1 + Real.exp (-x))
  | .debugPrint _ a, x => a.forward x

/-- Rust `ActivationFn::backward` (the mathematical inverse; for `Sigmoid` it is
`-ln((1-x)/x)`), on the real-number model. -/
def ActivationFn.backward : ActivationFn → ℝ → ℝ
  | .identity, x => x
  | .sigmoid, x => -Real.log ((1 - x) / x)
  | .debugPrint _ a, x => a.backward x

/-- Rust `ActivationFn::derivative`, evaluated on the already-activated output
(`1` for `Identity`, `x * (1 - x)` for `Sigmoid`). -/
def ActivationFn.derivative : ActivationFn → ℝ → ℝ
  | .identity, _ => 1
  | .sigmoid, x => x * (1 - x)
  | .debugPrint _ a, x => a.derivative x

/-- Rust `ActivationFn::clone_to_box`: a structurally identical independent copy. -/
def ActivationFn.clone_to_box : ActivationFn → ActivationFn
  | .identity => .identity
  | .sigmoid => .sigmoid
  | .debugPrint o a => .debugPrint o a.clone_to_box

/-- Rust `ActivationFn::get_serializable`: the tag describing an activation value. -/
def ActivationFn.get_serializable : ActivationFn → ActivationFnInfo
  | .identity => .identity
  | .sigmoid => .sigmoid
  | .debugPrint o a => .debugPrint o a.get_serializable

/-- Rust `ActivationFnInfo::get_function`: construct the activation from its tag. -/
def ActivationFnInfo.get_function : ActivationFnInfo → ActivationFn
  | .identity => .identity
  | .sigmoid => .sigmoid
  | .debugPrint o a => .debugPrint o a.get_function

/-- IEEE-style extension of the finite doubles, used to model the non-finite
values `Sigmoid::backward` produces outside `(0,1)`. -/
inductive F64 : Type where
  | fin (x : ℝ) : F64
  | pinf : F64
  | ninf : F64
  | nan : F64

/-- Holds (`true`) exactly on finite values. -/
def F64.isFinite : F64 → Bool
  | .fin _ => true
  | _ => false

/-- IEEE division of two finite doubles (zero modelled as `+0.0`, which is how
`(1.0 - x) / x` reaches a zero divisor in `Sigmoid::backward`):
`a / 0` is `NaN` for `a = 0` and a signed infinity otherwise. -/
def F64.fdiv (a b : ℝ) : F64 :=
  if b = 0 then (if a = 0 then .nan else if 0 < a then .pinf else .ninf)
  else .fin (a / b)

/-- IEEE `ln`: `NaN` on negatives (and on `NaN`/`-inf`), `-inf` at `0`,
`+inf` at `+inf`, and the real logarithm on positive finite values. -/
def F64.ln : F64 → F64
  | .fin a => if a < 0 then .nan else if a = 0 then .ninf else .fin (Real.log a)
  | .pinf => .pinf
  | .ninf => .nan
  | .nan => .nan

/-- IEEE negation. -/
def F64.neg : F64 → F64
  | .fin a => .fin (-a)
  | .pinf => .ninf
  | .ninf => .pinf
  | .nan => .nan

/-- Rust `Sigmoid::backward` under IEEE semantics: `-((1.0 - x) / x).ln()` on a
finite input `x`. -/
def sigmoidBackwardF (x : ℝ) : F64 :=
  F64.neg (F64.ln (F64.fdiv (1 - x) x))

/-- Rust `Layer` (`src/network.rs`): weight matrix (one row of incoming weights per
neuron), bias vector, and the layer's activation function. -/
structure Layer : Type where
  weights : List (List ℝ)
  biases : List ℝ
  activation : ActivationFn

instance : Inhabited Layer := ⟨⟨[], [], .identity⟩⟩

/-- Rust `Layer::len`: the number of neurons, read from the bias vector. -/
def Layer.len (l : Layer) : Nat := l.biases.length

/-- Rust `Layer::with_dimensions`: an all-zero layer of the given shape. -/
def Layer.with_dimensions (num_neurons num_inputs : Nat) (activation : ActivationFn) : Layer :=
  ⟨List.replicate num_neurons (List.replicate num_inputs 0),
   List.replicate num_neurons 0, activation⟩

/-- Rust `Network<NUM_IN, NUM_OUT>`: an ordered list of layers. -/
structure Network (NUM_IN NUM_OUT : Nat) : Type where
  layers : List Layer

variable {NUM_IN NUM_OUT : Nat}

/-- Pre-activation (net input) of neuron `i` of a layer on a given input:
`sum = biases[i]; for j in 0..input.len() { sum += weights[i][j] * input[j] }`. -/
def neuronNet (l : Layer) (i : Nat) (input : List ℝ) : ℝ :=
  l.biases.getD i 0 +
    ((List.range input.length).map
      (fun j => (l.weights.getD i []).getD j 0 * input.getD j 0)).sum

/-- One neuron's activated output. -/
def neuronOut (l : Layer) (i : Nat) (input : List ℝ) : ℝ :=
  l.activation.forward (neuronNet l i input)

/-- One layer applied to an input vector (the per-layer loop body shared by
`forward` and `forward_with_intermediate_outputs`): a fresh output with one
activated entry per weight row. -/
def layerForward (l : Layer) (input : List ℝ) : List ℝ :=
  (List.range l.weights.length).map (fun i => neuronOut l i input)

/-- Sequential application of a list of layers (the hidden-layer loop of
`Network::forward` runs this over `layers[..len-1]`). -/
def applyLayers : List Layer → List ℝ → List ℝ
  | [], v => v
  | l :: rest, v => applyLayers rest (layerForward l v)

/-- The last-layer loop of `Network::forward`: neuron outputs are written into
a zero-initialised array of length `NUM_OUT`, so slots at index
`weights.len()` and beyond keep their `0.0`. -/
def lastLayerOutput (NUM_OUT : Nat) (l : Layer) (input : List ℝ) : List ℝ :=
  (List.range NUM_OUT).map (fun i => if i < l.weights.length then neuronOut l i input else 0)

/-- Rust `Network::forward`: all layers but the last applied in sequence, then the
final layer written into the `[0.0; NUM_OUT]` output array. -/
def Network.forward (net : Network NUM_IN NUM_OUT) (input : List ℝ) : List ℝ :=
  lastLayerOutput NUM_OUT (net.layers.getD (net.layers.length - 1) default)
    (applyLayers net.layers.dropLast input)

/-- Rust `Network::forward_with_intermediate_outputs` as a structural recursion:
the raw input followed by every successive layer output. -/
def fwioFrom : List Layer → List ℝ → List (List ℝ)
  | [], v => [v]
  | l :: rest, v => v :: fwioFrom rest (layerForward l v)

/-- Rust `Network::forward_with_intermediate_outputs`. -/
def Network.forward_with_intermediate_outputs (net : Network NUM_IN NUM_OUT)
    (input : List ℝ) : List (List ℝ) :=
  fwioFrom net.layers input

/-- Rust `BackpropagationPassResult` (`src/network.rs`). -/
structure BackpropagationPassResult : Type where
  layer_gradients : List (List ℝ)
  total_error : ℝ

/-- The seeded output-layer error gradients: `output[i] - target[i]` for each
output neuron `i`, pushed onto the last `layer_gradients` slot. -/
def outputGradients (NUM_OUT : Nat) (finalOut target : List ℝ) : List ℝ :=
  (List.range NUM_OUT).map (fun i => finalOut.getD i 0 - target.getD i 0)

/-- The `total_error` as accumulated in the seeding loop:
`(-error_gradient) * (-error_gradient) / 2.0` summed over output neurons. -/
def totalError (NUM_OUT : Nat) (finalOut target : List ℝ) : ℝ :=
  ((List.range NUM_OUT).map (fun i =>
    (-(finalOut.getD i 0 - target.getD i 0)) * (-(finalOut.getD i 0 - target.getD i 0)) / 2)).sum

/-- The `neuron_net_input_gradient` for neuron `j` of a layer: its output gradient
times the activation derivative evaluated on its activated output. -/
def netInputGradient (l : Layer) (out grad : List ℝ) (j : Nat) : ℝ :=
  grad.getD j 0 * l.activation.derivative (out.getD j 0)

/-- The upstream (previous layer's) gradient accumulated while one layer is
processed: allocated with length `weights[0].len()` and receiving
`+= weights[j][k] * neuron_net_input_gradient` for every neuron `j` of the
layer, using the layer's un-updated weights. -/
def upstreamGradient (l : Layer) (out grad : List ℝ) : List ℝ :=
  (List.range (l.weights.getD 0 []).length).map (fun k =>
    ((List.range l.biases.length).map (fun j =>
      (l.weights.getD j []).getD k 0 * netInputGradient l out grad j)).sum)

/-- The delta layer recorded for one layer during the reverse pass: shaped by
`Layer::with_dimensions(weights.len(), weights[0].len(), activation.clone_to_box())`,
then row `j` (for `j < len()`) is replaced by
`learning_rate * neuron_net_input_gradient * prev_output[k]` per weight and
bias `j` by `learning_rate * neuron_net_input_gradient`; rows and biases at
`len()` and beyond keep their zeros. -/
def layerDelta (l : Layer) (prevOut out grad : List ℝ) (lr : ℝ) : Layer :=
  ⟨(List.range l.weights.length).map (fun j =>
      if j < l.biases.length then
        (List.range (l.weights.getD j []).length).map (fun k =>
          lr * (netInputGradient l out grad j * prevOut.getD k 0))
      else List.replicate (l.weights.getD 0 []).length 0),
   (List.range l.weights.length).map (fun j =>
      if j < l.biases.length then lr * netInputGradient l out grad j else 0),
   l.activation.clone_to_box⟩

/-- The reverse (last-to-first) delta-computation loop of `backpropagate`.
Given the layers of a suffix of the network, the vector entering that suffix
and the seeded gradient for the network's LAST layer, it returns the recorded
delta layers (front-to-back; the source pushes them back-to-front and
compensates by indexing `layer_deltas[layer_count - i - 1]` in the apply
loop), the final `layer_gradients` entries for those layers (front-to-back),
and the gradient propagated upstream of the suffix's first layer. -/
def backwardPass (lr : ℝ) (seed : List ℝ) :
    List Layer → List ℝ → List Layer × List (List ℝ) × List ℝ
  | [], _ => ([], [], seed)
  | l :: rest, v =>
    let out := layerForward l v
    let bp := backwardPass lr seed rest out
    (layerDelta l v out bp.2.2 lr :: bp.1, bp.2.2 :: bp.2.1,
      upstreamGradient l out bp.2.2)

/-- The apply-phase loop body for one layer:
`weights[j][k] -= delta.weights[j][k]` and `biases[j] -= delta.biases[j]` for
every neuron `j < len()`; weight rows at `len()` and beyond are untouched and
the activation is untouched. -/
def applyDeltaLayer (l d : Layer) : Layer :=
  ⟨(List.range l.weights.length).map (fun j =>
      if j < l.biases.length then
        (List.range (l.weights.getD j []).length).map (fun k =>
          (l.weights.getD j []).getD k 0 - (d.weights.getD j []).getD k 0)
      else l.weights.getD j []),
   (List.range l.biases.length).map (fun j => l.biases.getD j 0 - d.biases.getD j 0),
   l.activation⟩

/-- Rust `Network::backpropagate`: forward pass retaining every intermediate
output, seed the output error gradients and total error, run the reverse
delta-computation loop, and only then apply every recorded delta. -/
def Network.backpropagate (net : Network NUM_IN NUM_OUT) (input target : List ℝ)
    (lr : ℝ) : Network NUM_IN NUM_OUT × BackpropagationPassResult :=
  let io := net.forward_with_intermediate_outputs input
  let seed := outputGradients NUM_OUT (io.getLastD []) target
  let bp := backwardPass lr seed net.layers input
  (⟨List.zipWith applyDeltaLayer net.layers bp.1⟩,
   ⟨bp.2.1, totalError NUM_OUT (io.getLastD []) target⟩)

/-- Shape invariant for one layer whose declared input width is `nin`
(spec §3): as many weight rows as biases, at least one neuron, and every
weight row of length `nin`. -/
def Layer.WF (l : Layer) (nin : Nat) : Prop :=
  l.weights.length = l.biases.length ∧ 0 < l.biases.length ∧
    ∀ row ∈ l.weights, row.length = nin

/-- Layer widths chain correctly from input width `nin` to output width
`nout`. -/
def chainWF (nin : Nat) : List Layer → Nat → Prop
  | [], nout => nin = nout
  | l :: rest, nout => Layer.WF l nin ∧ chainWF l.biases.length rest nout

/-- Network shape invariant (spec §3): at least one layer and widths chaining
from `NUM_IN` to `NUM_OUT`. -/
def Network.WF (net : Network NUM_IN NUM_OUT) : Prop :=
  net.layers ≠ [] ∧ chainWF NUM_IN net.layers NUM_OUT

/-- The width of the vector entering layer `m`: `NUM_IN` for `m = 0`, else the
neuron count of layer `m - 1`. -/
def widthAt (nin : Nat) (ls : List Layer) : Nat → Nat
  | 0 => nin
  | m + 1 => (ls.getD m default).biases.length

/-- Every weight and bias of the layer is zero. -/
def Layer.allZero (l : Layer) : Prop :=
  (∀ row ∈ l.weights, ∀ w ∈ row, w = 0) ∧ ∀ b ∈ l.biases, b = 0

/-- Every weight and bias of the network is zero. -/
def Network.allZero (net : Network NUM_IN NUM_OUT) : Prop :=
  ∀ l ∈ net.layers, l.allZero

/-- A 1-input/1-output network with a single one-neuron `Identity` layer of
weight `w` and bias `b` (the single-layer test network of spec §8). -/
def netWB (w b : ℝ) : Network 1 1 := ⟨[⟨[[w]], [b], .identity⟩]⟩

/-- Concrete single-neuron `Identity` network used as a witness input. -/
def netId : Network 1 1 := netWB 1 0

/-- Concrete all-zero single-neuron `Sigmoid` network used as a witness input. -/
def netSig : Network 1 1 := ⟨[⟨[[0]], [0], .sigmoid⟩]⟩

/-- The vector entering layer `m` during a pass over the network (the raw
input for `m = 0`). -/
def ioAt (net : Network NUM_IN NUM_OUT) (input : List ℝ) (m : Nat) : List ℝ :=
  (net.forward_with_intermediate_outputs input).getD m []

/-- In-bounds conditions for the indexing that one layer's weighted-sum loop
performs on input `cur`: `biases[i]` is read for every `i < weights.len()`
and `weights[i][j]` for every `j < cur.len()`. -/
def layerAccessOk (l : Layer) (cur : List ℝ) : Prop :=
  l.weights.length ≤ l.biases.length ∧
    ∀ j < l.weights.length, cur.length ≤ (l.weights.getD j []).length

/-- In-bounds conditions for every index `Network::forward` performs: the
`layers.len() - 1` slice/index guard (non-empty network), the per-layer
weighted-sum loops, and the final writes `output[i]` for
`i < weights.len()` into the `[0.0; NUM_OUT]` array. -/
def forwardAccessOk (net : Network NUM_IN NUM_OUT) (input : List ℝ) : Prop :=
  1 ≤ net.layers.length ∧
  (∀ m, m + 1 < net.layers.length →
    layerAccessOk (net.layers.getD m default) (ioAt net input m)) ∧
  (net.layers.getD (net.layers.length - 1) default).weights.length ≤ NUM_OUT ∧
  layerAccessOk (net.layers.getD (net.layers.length - 1) default)
    (ioAt net input (net.layers.length - 1))

/-- In-bounds conditions for every index
`Network::forward_with_intermediate_outputs` performs: the per-layer
weighted-sum loops, for every layer. -/
def fwioAccessOk (net : Network NUM_IN NUM_OUT) (input : List ℝ) : Prop :=
  ∀ m < net.layers.length, layerAccessOk (net.layers.getD m default) (ioAt net input m)

/-- The length of the `layer_gradients[i]` vector read while layer `i` is
processed: seeded with `NUM_OUT` entries for the last layer, otherwise
allocated with `layers[i+1].weights[0].len()` zeros while layer `i + 1` was
processed. -/
def gradLenAt (net : Network NUM_IN NUM_OUT) (i : Nat) : Nat :=
  if i = net.layers.length - 1 then NUM_OUT
  else ((net.layers.getD (i + 1) default).weights.getD 0 []).length

/-- In-bounds conditions for every index `Network::backpropagate` performs
beyond the forward pass it begins with: the `last().unwrap()` reads
(non-empty network), the seeding loop's `intermediate_outputs.last()[i]` for
`i < NUM_OUT`, the `layer_deltas[layer_count - i - 1]` lookup of the apply
loop (one recorded delta per layer), and per layer `i` of the reverse loop:
`weights[0]`, `intermediate_outputs[i+1][j]` and `layer_gradients[i][j]` and
`layer_delta.{weights,biases}[j]` for each neuron `j < len()`,
`intermediate_outputs[i][k]` for each weight index `k` of row `j`, and the
`layer_gradients[i-1][k]` accumulation (allocated with `weights[0].len()`
zeros). -/
def backpropAccessOk (net : Network NUM_IN NUM_OUT) (input target : List ℝ) (lr : ℝ) : Prop :=
  1 ≤ net.layers.length ∧
  NUM_OUT ≤ ((net.forward_with_intermediate_outputs input).getLastD []).length ∧
  net.layers.length ≤
    (backwardPass lr
      (outputGradients NUM_OUT ((net.forward_with_intermediate_outputs input).getLastD []) target)
      net.layers input).1.length ∧
  ∀ i < net.layers.length,
    0 < (net.layers.getD i default).weights.length ∧
    (net.layers.getD i default).biases.length ≤ (net.layers.getD i default).weights.length ∧
    (net.layers.getD i default).biases.length ≤ (ioAt net input (i + 1)).length ∧
    (net.layers.getD i default).biases.length ≤ gradLenAt net i ∧
    (∀ j < (net.layers.getD i default).biases.length,
      ((net.layers.getD i default).weights.getD j []).length ≤ (ioAt net input i).length) ∧
    (0 < i → ∀ j < (net.layers.getD i default).biases.length,
      ((net.layers.getD i default).weights.getD j []).length ≤
        ((net.layers.getD i default).weights.getD 0 []).length)

end

/-- Reading an index of a `(List.range n).map f` list. -/
theorem getD_map_range {α : Type} (f : Nat → α) (d : α) {n i : Nat} (h : i < n) :
    ((List.range n).map f).getD i d = f i := by
  simp [List.getElem?_map, List.getElem?_range, h]

theorem layerForward_length (l : Layer) (v : List ℝ) :
    (layerForward l v).length = l.weights.length := by
  simp [layerForward]

theorem fwioFrom_length (ls : List Layer) (v : List ℝ) :
    (fwioFrom ls v).length = ls.length + 1 := by
  induction ls generalizing v with
  | nil => rfl
  | cons l rest ih => simp [fwioFrom, ih]

theorem fwioFrom_getD_zero (ls : List Layer) (v : List ℝ) :
    (fwioFrom ls v).getD 0 [] = v := by
  cases ls <;> rfl

theorem fwioFrom_getD_succ (l : Layer) (rest : List Layer) (v : List ℝ) (i : Nat) :
    (fwioFrom (l :: rest) v).getD (i + 1) [] =
      (fwioFrom rest (layerForward l v)).getD i [] := by
  simp [fwioFrom]

theorem fwioFrom_getLastD (ls : List Layer) (v : List ℝ) (d : List ℝ) :
    (fwioFrom ls v).getLastD d = applyLayers ls v := by
  induction ls generalizing v d with
  | nil => rfl
  | cons l rest ih =>
      show (v :: fwioFrom rest (layerForward l v)).getLastD d = _
      rw [List.getLastD_cons, ih]
      rfl

theorem fwioFrom_getD_length (ls : List Layer) (v : List ℝ) :
    (fwioFrom ls v).getD ls.length [] = applyLayers ls v := by
  induction ls generalizing v with
  | nil => rfl
  | cons l rest ih =>
      show (v :: fwioFrom rest (layerForward l v)).getD (rest.length + 1) [] = _
      rw [List.getD_cons_succ, ih]
      rfl

theorem applyLayers_append (xs ys : List Layer) (v : List ℝ) :
    applyLayers (xs ++ ys) v = applyLayers ys (applyLayers xs v) := by
  induction xs generalizing v with
  | nil => rfl
  | cons l rest ih => simp [applyLayers, ih]

theorem lastLayerOutput_eq_layerForward (l : Layer) (v : List ℝ)
    (h : l.weights.length = NUM_OUT) : lastLayerOutput NUM_OUT l v = layerForward l v := by
  subst h
  unfold lastLayerOutput layerForward
  exact List.map_congr_left (fun i hi => by simp [List.mem_range.mp hi])

theorem forward_eq_applyLayers (net : Network NUM_IN NUM_OUT) (input : List ℝ)
    (h1 : net.layers ≠ [])
    (hlast : (net.layers.getD (net.layers.length - 1) default).weights.length = NUM_OUT) :
    net.forward input = applyLayers net.layers input := by
  have hlen : net.layers.length - 1 < net.layers.length :=
    Nat.sub_lt (List.length_pos.mpr h1) Nat.one_pos
  have hgl : net.layers.getD (net.layers.length - 1) default = net.layers.getLast h1 := by
    rw [List.getLast_eq_getElem]
    simp [List.getElem?_eq_getElem hlen]
  have hsplit : net.layers.dropLast ++ [net.layers.getLast h1] = net.layers :=
    List.dropLast_append_getLast h1
  unfold Network.forward
  rw [lastLayerOutput_eq_layerForward _ _ hlast, hgl]
  conv_rhs => rw [← hsplit]
  rw [applyLayers_append]
  rfl

theorem widthAt_cons (nin : Nat) (l : Layer) (rest : List Layer) (m : Nat) :
    widthAt nin (l :: rest) (m + 1) = widthAt l.biases.length rest m := by
  cases m <;> simp [widthAt]

theorem chainWF_layerWF {nin nout : Nat} {ls : List Layer} (h : chainWF nin ls nout) :
    ∀ m < ls.length, Layer.WF (ls.getD m default) (widthAt nin ls m) := by
  induction ls generalizing nin with
  | nil => intro m hm; simp at hm
  | cons l rest ih =>
      obtain ⟨hl, hc⟩ := h
      intro m hm
      cases m with
      | zero => simpa [widthAt] using hl
      | succ m =>
          rw [widthAt_cons]
          simpa using ih hc m (by simpa using hm)

theorem chainWF_last {nin nout : Nat} {ls : List Layer} (h : chainWF nin ls nout) :
    widthAt nin ls ls.length = nout := by
  induction ls generalizing nin with
  | nil => simpa [widthAt, chainWF] using h
  | cons l rest ih =>
      obtain ⟨_, hc⟩ := h
      show widthAt nin (l :: rest) (rest.length + 1) = nout
      rw [widthAt_cons]
      exact ih hc

theorem fwio_widths {nin nout : Nat} {ls : List Layer} {v : List ℝ}
    (h : chainWF nin ls nout) (hv : v.length = nin) :
    ∀ m ≤ ls.length, ((fwioFrom ls v).getD m []).length = widthAt nin ls m := by
  induction ls generalizing nin v with
  | nil =>
      intro m hm
      have hm0 : m = 0 := Nat.le_zero.mp hm
      subst hm0
      simpa [fwioFrom, widthAt] using hv
  | cons l rest ih =>
      obtain ⟨hl, hc⟩ := h
      intro m hm
      cases m with
      | zero =>
          rw [fwioFrom_getD_zero]
          simpa [widthAt] using hv
      | succ m =>
          rw [fwioFrom_getD_succ, widthAt_cons]
          exact ih hc (by rw [layerForward_length, hl.1]) m (by simpa using hm)

/-- The width entering the (virtual slot after the) last layer is the declared
output width: the last layer's activated output has length `NUM_OUT`. -/
theorem fwio_last_length (net : Network NUM_IN NUM_OUT) (input : List ℝ)
    (hWF : net.WF) (hin : input.length = NUM_IN) :
    ((net.forward_with_intermediate_outputs input).getLastD []).length = NUM_OUT := by
  obtain ⟨hne, hc⟩ := hWF
  unfold Network.forward_with_intermediate_outputs
  rw [fwioFrom_getLastD, ← fwioFrom_getD_length,
    fwio_widths hc hin net.layers.length le_rfl, chainWF_last hc]

/-- C9: constructing the activation via `get_function` and reading it back via
`get_serializable` reproduces a structurally identical tag, for every
`ActivationFnInfo`, including `DebugPrint` tags nested to arbitrary depth. -/
theorem activation_info_roundtrip (info : ActivationFnInfo) :
    (info.get_function).get_serializable = info := by
  induction info with
  | identity => rfl
  | sigmoid => rfl
  | debugPrint o a ih =>
      simp [ActivationFnInfo.get_function, ActivationFn.get_serializable, ih]

/-- Under the shape invariants the last retained intermediate output is the
`forward` output (helper shared by several results). -/
theorem fwio_getLastD_eq_forward (net : Network NUM_IN NUM_OUT) (input : List ℝ)
    (hWF : net.WF) :
    (net.forward_with_intermediate_outputs input).getLastD [] = net.forward input := by
  obtain ⟨hne, hc⟩ := hWF
  have hL : net.layers.length - 1 + 1 = net.layers.length :=
    Nat.succ_pred_eq_of_pos (List.length_pos.mpr hne)
  have hWFlast := chainWF_layerWF hc (net.layers.length - 1) (by omega)
  have hb : (net.layers.getD (net.layers.length - 1) default).biases.length = NUM_OUT := by
    have h := chainWF_last hc
    rw [← hL] at h
    simpa [widthAt] using h
  rw [Network.forward_with_intermediate_outputs, fwioFrom_getLastD,
    forward_eq_applyLayers net input hne (hWFlast.1.trans hb)]

/-- C4: under the shape invariants, `forward_with_intermediate_outputs(input)`
returns exactly `layers.len() + 1` vectors, whose first element is the raw
input and whose last element equals `forward(input)` element for element. -/
theorem fwio_spec (net : Network NUM_IN NUM_OUT) (input : List ℝ)
    (hWF : net.WF) (hin : input.length = NUM_IN) :
    (net.forward_with_intermediate_outputs input).length = net.layers.length + 1 ∧
    (net.forward_with_intermediate_outputs input).getD 0 [] = input ∧
    (net.forward_with_intermediate_outputs input).getLastD [] = net.forward input :=
  ⟨fwioFrom_length net.layers input, fwioFrom_getD_zero net.layers input,
    fwio_getLastD_eq_forward net input hWF⟩

theorem fwio_spec_witness :
    (netId.forward_with_intermediate_outputs [2]).length = netId.layers.length + 1 ∧
    (netId.forward_with_intermediate_outputs [2]).getD 0 [] = [2] ∧
    (netId.forward_with_intermediate_outputs [2]).getLastD [] = netId.forward [2] :=
  fwio_spec netId [2]
    ⟨by simp [netId, netWB], by simp [netId, netWB, chainWF, Layer.WF]⟩ (by simp)

theorem getD_eq_zero_of_forall {xs : List ℝ} (h : ∀ b ∈ xs, b = 0) (i : Nat) :
    xs.getD i 0 = 0 := by
  rcases Nat.lt_or_ge i xs.length with hi | hi
  · rw [List.getD_eq_getElem?_getD, List.getElem?_eq_getElem hi]
    exact h _ (List.getElem_mem hi)
  · rw [List.getD_eq_getElem?_getD, List.getElem?_eq_none hi]
    rfl

theorem neuronNet_zero {l : Layer} (h : l.allZero) (i : Nat) (input : List ℝ) :
    neuronNet l i input = 0 := by
  unfold neuronNet
  rw [getD_eq_zero_of_forall h.2]
  have hrow : ∀ j, (l.weights.getD i []).getD j 0 = 0 := by
    intro j
    rcases Nat.lt_or_ge i l.weights.length with hi | hi
    · refine getD_eq_zero_of_forall ?_ j
      intro w hw
      exact h.1 _ (by rw [List.getD_eq_getElem?_getD, List.getElem?_eq_getElem hi] at hw ⊢
                      exact List.getElem_mem hi) w hw
    · have hrowe : l.weights.getD i [] = [] := by
        rw [List.getD_eq_getElem?_getD, List.getElem?_eq_none hi]
        rfl
      rw [hrowe]
      simp
  have hs : ((List.range input.length).map
      (fun j => (l.weights.getD i []).getD j 0 * input.getD j 0)).sum = 0 := by
    refine List.sum_eq_zero ?_
    intro y hy
    obtain ⟨j, _, rfl⟩ := List.mem_map.mp hy
    rw [hrow, zero_mul]
  rw [hs, add_zero]

/-- C5: on a network whose weights and biases are all zero, `forward` returns
`activation.forward(0)` of the last layer repeated `NUM_OUT` times, for any
input; with `Sigmoid` activations throughout, every output equals exactly
`0.5`. -/
theorem forward_zero_network (net : Network NUM_IN NUM_OUT) (input : List ℝ)
    (hWF : net.WF) (hzero : net.allZero) :
    net.forward input =
      List.replicate NUM_OUT
        ((net.layers.getD (net.layers.length - 1) default).activation.forward 0) ∧
    ((∀ l ∈ net.layers, l.activation = .sigmoid) →
      net.forward input = List.replicate NUM_OUT (1 / 2)) := by
  obtain ⟨hne, hc⟩ := hWF
  have hL : net.layers.length - 1 < net.layers.length :=
    Nat.sub_lt (List.length_pos.mpr hne) Nat.one_pos
  have hmem : net.layers.getD (net.layers.length - 1) default ∈ net.layers := by
    rw [List.getD_eq_getElem?_getD, List.getElem?_eq_getElem hL]
    exact List.getElem_mem hL
  have hWFlast := chainWF_layerWF hc (net.layers.length - 1) hL
  have hb : (net.layers.getD (net.layers.length - 1) default).biases.length = NUM_OUT := by
    have h := chainWF_last hc
    rw [← Nat.succ_pred_eq_of_pos (List.length_pos.mpr hne)] at h
    simpa [widthAt] using h
  have hw : NUM_OUT ≤ (net.layers.getD (net.layers.length - 1) default).weights.length := by
    rw [hWFlast.1, hb]
  have main : net.forward input =
      List.replicate NUM_OUT
        ((net.layers.getD (net.layers.length - 1) default).activation.forward 0) := by
    unfold Network.forward lastLayerOutput
    rw [List.eq_replicate_iff]
    refine ⟨by simp, ?_⟩
    intro y hy
    obtain ⟨i, hi, rfl⟩ := List.mem_map.mp hy
    rw [if_pos (lt_of_lt_of_le (List.mem_range.mp hi) hw)]
    unfold neuronOut
    rw [neuronNet_zero (hzero _ hmem)]
  refine ⟨main, fun hsig => ?_⟩
  rw [main, hsig _ hmem]
  have : ActivationFn.sigmoid.forward 0 = 1 / 2 := by
    rw [ActivationFn.forward]
    norm_num [Real.exp_zero]
  rw [this]

theorem forward_zero_network_witness : netSig.forward [0] = List.replicate 1 (1 / 2) :=
  (forward_zero_network netSig [0]
      ⟨by simp [netSig], by simp [netSig, chainWF, Layer.WF]⟩
      (by simp [Network.allZero, Layer.allZero, netSig])).2
    (by simp [netSig])

theorem backwardPass_nil (lr : ℝ) (seed : List ℝ) (v : List ℝ) :
    backwardPass lr seed [] v = ([], [], seed) := rfl

theorem backwardPass_cons (lr : ℝ) (seed : List ℝ) (l : Layer) (rest : List Layer)
    (v : List ℝ) :
    backwardPass lr seed (l :: rest) v =
      (layerDelta l v (layerForward l v)
          (backwardPass lr seed rest (layerForward l v)).2.2 lr ::
        (backwardPass lr seed rest (layerForward l v)).1,
       (backwardPass lr seed rest (layerForward l v)).2.2 ::
        (backwardPass lr seed rest (layerForward l v)).2.1,
       upstreamGradient l (layerForward l v)
        (backwardPass lr seed rest (layerForward l v)).2.2) := rfl

theorem backwardPass_deltas_length (lr : ℝ) (seed : List ℝ) (ls : List Layer)
    (v : List ℝ) : (backwardPass lr seed ls v).1.length = ls.length := by
  induction ls generalizing v with
  | nil => rfl
  | cons l rest ih =>
      rw [backwardPass_cons]
      simp [ih]

theorem backwardPass_grads_length (lr : ℝ) (seed : List ℝ) (ls : List Layer)
    (v : List ℝ) : (backwardPass lr seed ls v).2.1.length = ls.length := by
  induction ls generalizing v with
  | nil => rfl
  | cons l rest ih =>
      rw [backwardPass_cons]
      simp [ih]

theorem backwardPass_grads_getLastD (lr : ℝ) (seed : List ℝ) (ls : List Layer)
    (v : List ℝ) (d : List ℝ) (h : ls ≠ []) :
    (backwardPass lr seed ls v).2.1.getLastD d = seed := by
  induction ls generalizing v d with
  | nil => exact absurd rfl h
  | cons l rest ih =>
      rw [backwardPass_cons]
      show List.getLastD (_ :: _) d = seed
      rw [List.getLastD_cons]
      cases rest with
      | nil => rfl
      | cons l2 rest2 => exact ih _ _ (by simp)

theorem backwardPass_grads_recur (lr : ℝ) (seed : List ℝ) (ls : List Layer)
    (v : List ℝ) : ∀ i, i + 1 < ls.length →
      (backwardPass lr seed ls v).2.1.getD i [] =
        upstreamGradient (ls.getD (i + 1) default) ((fwioFrom ls v).getD (i + 2) [])
          ((backwardPass lr seed ls v).2.1.getD (i + 1) []) := by
  induction ls generalizing v with
  | nil => intro i hi; simp at hi
  | cons l rest ih =>
      intro i hi
      rw [backwardPass_cons]
      cases i with
      | zero =>
          cases rest with
          | nil => simp at hi
          | cons l2 rest2 =>
              rw [backwardPass_cons]
              simp only [List.getD_cons_zero, List.getD_cons_succ]
              show upstreamGradient l2 _ _ = upstreamGradient ((l :: l2 :: rest2).getD 1 default)
                ((fwioFrom (l :: l2 :: rest2) v).getD 2 []) _
              rw [show (l :: l2 :: rest2).getD 1 default = l2 from rfl]
              rw [show (fwioFrom (l :: l2 :: rest2) v).getD 2 [] =
                (fwioFrom rest2 (layerForward l2 (layerForward l v))).getD 0 [] from rfl]
              rw [fwioFrom_getD_zero]
      | succ i =>
          simp only [List.getD_cons_succ]
          rw [ih (layerForward l v) i (by simpa using hi)]
          rfl

theorem backwardPass_deltas_getD (lr : ℝ) (seed : List ℝ) (ls : List Layer)
    (v : List ℝ) : ∀ i < ls.length,
      (backwardPass lr seed ls v).1.getD i default =
        layerDelta (ls.getD i default) ((fwioFrom ls v).getD i [])
          ((fwioFrom ls v).getD (i + 1) [])
          ((backwardPass lr seed ls v).2.1.getD i []) lr := by
  induction ls generalizing v with
  | nil => intro i hi; simp at hi
  | cons l rest ih =>
      intro i hi
      rw [backwardPass_cons]
      cases i with
      | zero =>
          simp only [List.getD_cons_zero]
          rw [show (fwioFrom (l :: rest) v).getD 1 [] =
            (fwioFrom rest (layerForward l v)).getD 0 [] from rfl]
          rw [fwioFrom_getD_zero, fwioFrom_getD_zero]
      | succ i =>
          simp only [List.getD_cons_succ]
          rw [ih (layerForward l v) i (by simpa using hi)]
          rfl

theorem backpropagate_fst_layers (net : Network NUM_IN NUM_OUT)
    (input target : List ℝ) (lr : ℝ) :
    (net.backpropagate input target lr).1.layers =
      List.zipWith applyDeltaLayer net.layers
        (backwardPass lr
          (outputGradients NUM_OUT ((fwioFrom net.layers input).getLastD []) target)
          net.layers input).1 := rfl

theorem backpropagate_grads (net : Network NUM_IN NUM_OUT)
    (input target : List ℝ) (lr : ℝ) :
    (net.backpropagate input target lr).2.layer_gradients =
      (backwardPass lr
        (outputGradients NUM_OUT ((fwioFrom net.layers input).getLastD []) target)
        net.layers input).2.1 := rfl

theorem backpropagate_total (net : Network NUM_IN NUM_OUT)
    (input target : List ℝ) (lr : ℝ) :
    (net.backpropagate input target lr).2.total_error =
      totalError NUM_OUT ((fwioFrom net.layers input).getLastD []) target := rfl

theorem getD_zipWith {α β γ : Type} (f : α → β → γ) (as : List α) (bs : List β)
    (da : α) (db : β) (dc : γ) (i : Nat) (ha : i < as.length) (hb : i < bs.length) :
    (List.zipWith f as bs).getD i dc = f (as.getD i da) (bs.getD i db) := by
  simp [List.getElem?_zipWith, List.getElem?_eq_getElem, ha, hb]

theorem applyDeltaLayer_weights_entry (l d : Layer) {j k : Nat}
    (hjw : j < l.weights.length) (hjb : j < l.biases.length)
    (hk : k < (l.weights.getD j []).length) :
    ((applyDeltaLayer l d).weights.getD j []).getD k 0 =
      (l.weights.getD j []).getD k 0 - (d.weights.getD j []).getD k 0 := by
  unfold applyDeltaLayer
  rw [getD_map_range _ _ hjw, if_pos hjb, getD_map_range _ _ hk]

theorem applyDeltaLayer_biases_entry (l d : Layer) {j : Nat} (hj : j < l.biases.length) :
    (applyDeltaLayer l d).biases.getD j 0 = l.biases.getD j 0 - d.biases.getD j 0 := by
  unfold applyDeltaLayer
  rw [getD_map_range _ _ hj]

theorem layerDelta_weights_entry (l : Layer) (prevOut out grad : List ℝ) (lr : ℝ)
    {j k : Nat} (hjw : j < l.weights.length) (hjb : j < l.biases.length)
    (hk : k < (l.weights.getD j []).length) :
    ((layerDelta l prevOut out grad lr).weights.getD j []).getD k 0 =
      lr * (netInputGradient l out grad j * prevOut.getD k 0) := by
  unfold layerDelta
  rw [getD_map_range _ _ hjw, if_pos hjb, getD_map_range _ _ hk]

theorem layerDelta_biases_entry (l : Layer) (prevOut out grad : List ℝ) (lr : ℝ)
    {j : Nat} (hjw : j < l.weights.length) (hjb : j < l.biases.length) :
    (layerDelta l prevOut out grad lr).biases.getD j 0 =
      lr * netInputGradient l out grad j := by
  unfold layerDelta
  rw [getD_map_range _ _ hjw, if_pos hjb]

/-- C1: `backpropagate` is a two-phase compute-then-apply update. The returned
`layer_gradients` are computed from the pre-call network: the last entry is
the seeded output error and each earlier entry is the gradient propagated
through the NEXT layer's pre-call (un-updated) weights; and every updated
parameter equals the old parameter minus the recorded delta
`learning_rate * gradient`, where the delta is likewise a function of the
pre-call weights and outputs only. -/
theorem backpropagate_compute_then_apply (net : Network NUM_IN NUM_OUT)
    (input target : List ℝ) (lr : ℝ) (hWF : net.WF) (hin : input.length = NUM_IN)
    (htg : target.length = NUM_OUT) :
    ((net.backpropagate input target lr).2.layer_gradients.getLastD [] =
      outputGradients NUM_OUT
        ((net.forward_with_intermediate_outputs input).getLastD []) target) ∧
    (∀ i, i + 1 < net.layers.length →
      (net.backpropagate input target lr).2.layer_gradients.getD i [] =
        upstreamGradient (net.layers.getD (i + 1) default)
          ((net.forward_with_intermediate_outputs input).getD (i + 2) [])
          ((net.backpropagate input target lr).2.layer_gradients.getD (i + 1) [])) ∧
    (∀ i < net.layers.length, ∀ j < (net.layers.getD i default).biases.length,
      ∀ k < ((net.layers.getD i default).weights.getD j []).length,
      (((net.backpropagate input target lr).1.layers.getD i default).weights.getD j []).getD
          k 0 =
        ((net.layers.getD i default).weights.getD j []).getD k 0 -
          lr * (((net.backpropagate input target lr).2.layer_gradients.getD i []).getD j 0 *
            (net.layers.getD i default).activation.derivative
              (((net.forward_with_intermediate_outputs input).getD (i + 1) []).getD j 0) *
            ((net.forward_with_intermediate_outputs input).getD i []).getD k 0)) ∧
    (∀ i < net.layers.length, ∀ j < (net.layers.getD i default).biases.length,
      ((net.backpropagate input target lr).1.layers.getD i default).biases.getD j 0 =
        (net.layers.getD i default).biases.getD j 0 -
          lr * (((net.backpropagate input target lr).2.layer_gradients.getD i []).getD j 0 *
            (net.layers.getD i default).activation.derivative
              (((net.forward_with_intermediate_outputs input).getD (i + 1) []).getD j 0))) := by
  obtain ⟨hne, hc⟩ := hWF
  refine ⟨?_, ?_, ?_, ?_⟩
  · rw [backpropagate_grads, backwardPass_grads_getLastD _ _ _ _ _ hne]
    rfl
  · intro i hi
    rw [backpropagate_grads, backwardPass_grads_recur lr _ net.layers input i hi]
    rfl
  · intro i hi j hj k hk
    have hWFi := chainWF_layerWF hc i hi
    have hjw : j < (net.layers.getD i default).weights.length := by
      rw [hWFi.1]; exact hj
    rw [backpropagate_fst_layers,
      getD_zipWith applyDeltaLayer net.layers _ default default default i hi
        (by rw [backwardPass_deltas_length]; exact hi),
      applyDeltaLayer_weights_entry _ _ hjw hj hk,
      backwardPass_deltas_getD lr _ net.layers input i hi,
      layerDelta_weights_entry _ _ _ _ _ hjw hj hk,
      backpropagate_grads]
    rfl
  · intro i hi j hj
    have hWFi := chainWF_layerWF hc i hi
    have hjw : j < (net.layers.getD i default).weights.length := by
      rw [hWFi.1]; exact hj
    rw [backpropagate_fst_layers,
      getD_zipWith applyDeltaLayer net.layers _ default default default i hi
        (by rw [backwardPass_deltas_length]; exact hi),
      applyDeltaLayer_biases_entry _ _ hj,
      backwardPass_deltas_getD lr _ net.layers input i hi,
      layerDelta_biases_entry _ _ _ _ _ hjw hj,
      backpropagate_grads]
    rfl

theorem backpropagate_compute_then_apply_witness :
    (((netId.backpropagate [1] [0] (1 / 2)).1.layers.getD 0 default).weights.getD 0 []).getD
        0 0 =
      ((netId.layers.getD 0 default).weights.getD 0 []).getD 0 0 -
        (1 / 2) * (((netId.backpropagate [1] [0] (1 / 2)).2.layer_gradients.getD 0 []).getD
            0 0 *
          (netId.layers.getD 0 default).activation.derivative
            (((netId.forward_with_intermediate_outputs [1]).getD 1 []).getD 0 0) *
          ((netId.forward_with_intermediate_outputs [1]).getD 0 []).getD 0 0) :=
  (backpropagate_compute_then_apply netId [1] [0] (1 / 2)
      ⟨by simp [netId, netWB], by simp [netId, netWB, chainWF, Layer.WF]⟩
      (by simp) (by simp)).2.2.1 0 (by simp [netId, netWB]) 0 (by simp [netId, netWB])
    0 (by simp [netId, netWB])

/-- C3: the `total_error` returned by `backpropagate` is the sum over all
output neurons of `(output[i] - target[i])^2 / 2`, where the output is the
pre-update forward output for the given input. -/
theorem backpropagate_total_error (net : Network NUM_IN NUM_OUT)
    (input target : List ℝ) (lr : ℝ) (hWF : net.WF) (hin : input.length = NUM_IN)
    (htg : target.length = NUM_OUT) :
    (net.backpropagate input target lr).2.total_error =
      ((List.range NUM_OUT).map
        (fun i => ((net.forward input).getD i 0 - target.getD i 0) ^ 2 / 2)).sum := by
  rw [backpropagate_total,
    show (fwioFrom net.layers input).getLastD [] = net.forward input from
      fwio_getLastD_eq_forward net input hWF]
  unfold totalError
  refine congrArg List.sum (List.map_congr_left ?_)
  intro i _
  ring

theorem backpropagate_total_error_witness :
    (netId.backpropagate [2] [0] 1).2.total_error =
      ((List.range 1).map
        (fun i => ((netId.forward [2]).getD i 0 - List.getD [(0 : ℝ)] i 0) ^ 2 / 2)).sum :=
  backpropagate_total_error netId [2] [0] 1
    ⟨by simp [netId, netWB], by simp [netId, netWB, chainWF, Layer.WF]⟩
    (by simp) (by simp)

/-- C7: `backpropagate` mutates only weight and bias values: the layer count,
every layer's weight-matrix and bias-vector lengths, every weight row's
length, and every layer's activation (hence its serializable tag) are
unchanged, and a network holds no state besides its layers. -/
theorem backpropagate_frame (net : Network NUM_IN NUM_OUT) (input target : List ℝ)
    (lr : ℝ) (hWF : net.WF) (hin : input.length = NUM_IN)
    (htg : target.length = NUM_OUT) :
    (net.backpropagate input target lr).1.layers.length = net.layers.length ∧
    ∀ i < net.layers.length,
      ((net.backpropagate input target lr).1.layers.getD i default).weights.length =
        (net.layers.getD i default).weights.length ∧
      ((net.backpropagate input target lr).1.layers.getD i default).biases.length =
        (net.layers.getD i default).biases.length ∧
      (∀ j < (net.layers.getD i default).weights.length,
        (((net.backpropagate input target lr).1.layers.getD i default).weights.getD
            j []).length =
          ((net.layers.getD i default).weights.getD j []).length) ∧
      ((net.backpropagate input target lr).1.layers.getD i default).activation =
        (net.layers.getD i default).activation ∧
      ((net.backpropagate input target lr).1.layers.getD i
            default).activation.get_serializable =
        (net.layers.getD i default).activation.get_serializable := by
  refine ⟨?_, ?_⟩
  · rw [backpropagate_fst_layers, List.length_zipWith, backwardPass_deltas_length,
      min_self]
  · intro i hi
    rw [backpropagate_fst_layers,
      getD_zipWith applyDeltaLayer net.layers _ default default default i hi
        (by rw [backwardPass_deltas_length]; exact hi)]
    refine ⟨by simp [applyDeltaLayer], by simp [applyDeltaLayer], ?_, rfl, rfl⟩
    intro j hj
    unfold applyDeltaLayer
    rw [getD_map_range _ _ hj]
    by_cases hjb : j < (net.layers.getD i default).biases.length
    · rw [if_pos hjb]
      simp
    · rw [if_neg hjb]

theorem backpropagate_frame_witness :
    (netId.backpropagate [1] [0] (1 / 2)).1.layers.length = netId.layers.length ∧
    ((netId.backpropagate [1] [0] (1 / 2)).1.layers.getD 0 default).activation =
      (netId.layers.getD 0 default).activation :=
  ⟨(backpropagate_frame netId [1] [0] (1 / 2)
      ⟨by simp [netId, netWB], by simp [netId, netWB, chainWF, Layer.WF]⟩
      (by simp) (by simp)).1,
   ((backpropagate_frame netId [1] [0] (1 / 2)
      ⟨by simp [netId, netWB], by simp [netId, netWB, chainWF, Layer.WF]⟩
      (by simp) (by simp)).2 0 (by simp [netId, netWB])).2.2.2.1⟩

/-- C2: on a single-layer, single-neuron `Identity` network with weight `w`
and bias `b`, `backpropagate` with input `[x]`, target `[t]` and learning
rate `η` leaves weight `w - η*(x*w + b - t)*x` and bias
`b - η*(x*w + b - t)`; for `w = 0.5, b = 0, x = 1, t = 0, η = 0.5` the
pre-update output is `0.5`, the new weight exactly `0.25` and the new bias
exactly `-0.25`. -/
theorem backpropagate_single_neuron_identity (w b x t η : ℝ) :
    (((netWB w b).backpropagate [x] [t] η).1.layers =
      [⟨[[w - η * (x * w + b - t) * x]], [b - η * (x * w + b - t)], .identity⟩]) ∧
    (netWB 0.5 0).forward [1] = [0.5] ∧
    ((netWB 0.5 0).backpropagate [1] [0] 0.5).1.layers =
      [⟨[[(0.25 : ℝ)]], [(-0.25 : ℝ)], .identity⟩] := by
  have key : ∀ w1 b1 x1 t1 g1 : ℝ,
      ((netWB w1 b1).backpropagate [x1] [t1] g1).1.layers =
        [⟨[[w1 - g1 * (x1 * w1 + b1 - t1) * x1]], [b1 - g1 * (x1 * w1 + b1 - t1)],
          .identity⟩] := by
    intro w1 b1 x1 t1 g1
    simp only [netWB, Network.backpropagate, Network.forward_with_intermediate_outputs,
      fwioFrom, layerForward, neuronOut, neuronNet, ActivationFn.forward,
      backwardPass, outputGradients, layerDelta, applyDeltaLayer, upstreamGradient,
      netInputGradient, ActivationFn.derivative, ActivationFn.clone_to_box,
      List.range_succ, List.range_zero, List.nil_append, List.map_cons, List.map_nil,
      List.length_cons, List.length_nil, List.getD_cons_zero, List.getD_cons_succ,
      List.getLastD_cons, List.sum_cons, List.sum_nil, List.zipWith_cons_cons,
      List.zipWith_nil_right, List.zipWith_nil_left]
    norm_num [List.getLastD_nil, Layer.mk.injEq, List.cons.injEq]
    exact ⟨by ring, Or.inl (by ring)⟩
  refine ⟨key w b x t η, ?_, ?_⟩
  · simp only [netWB, Network.forward, lastLayerOutput, applyLayers, layerForward,
      neuronOut, neuronNet, ActivationFn.forward, List.dropLast_single,
      List.range_succ, List.range_zero, List.nil_append, List.map_cons, List.map_nil,
      List.length_cons, List.length_nil, List.getD_cons_zero, List.getD_cons_succ,
      List.sum_cons, List.sum_nil]
    norm_num
  · rw [key]
    norm_num

/-- C8: `Sigmoid::backward` computes `-ln((1-x)/x)`; on `(0,1)` it is the
mathematical inverse of `Sigmoid::forward`, and outside `(0,1)` the IEEE
evaluation of `-((1.0 - x) / x).ln()` yields a non-finite value (`NaN` or an
infinity) instead of raising or coercing to a finite default. -/
theorem sigmoid_backward_spec (x : ℝ) :
    (ActivationFn.sigmoid.backward x = -Real.log ((1 - x) / x)) ∧
    (0 < x → x < 1 →
      sigmoidBackwardF x = F64.fin (ActivationFn.sigmoid.backward x) ∧
      ActivationFn.sigmoid.forward (ActivationFn.sigmoid.backward x) = x) ∧
    (¬ (0 < x ∧ x < 1) → (sigmoidBackwardF x).isFinite = false) := by
  refine ⟨rfl, fun h0 h1 => ?_, fun h => ?_⟩
  · have hnum : 0 < 1 - x := by linarith
    have hpos : 0 < (1 - x) / x := div_pos hnum h0
    constructor
    · simp [sigmoidBackwardF, F64.fdiv, F64.ln, F64.neg, ActivationFn.backward,
        h0.ne', hpos.ne', not_lt.mpr hpos.le]
    · show (1 : ℝ) / (1 + Real.exp (-(-Real.log ((1 - x) / x)))) = x
      rw [neg_neg, Real.exp_log hpos]
      field_simp
  · rcases lt_trichotomy x 0 with hneg | hz | hpos
    · have hq : (1 - x) / x < 0 := div_neg_of_pos_of_neg (by linarith) hneg
      simp [sigmoidBackwardF, F64.fdiv, F64.ln, F64.neg, F64.isFinite, hneg.ne, hq]
    · subst hz
      simp [sigmoidBackwardF, F64.fdiv, F64.ln, F64.neg, F64.isFinite]
    · have hge : 1 ≤ x := by
        by_contra hlt
        exact h ⟨hpos, lt_of_not_le hlt⟩
      rcases eq_or_lt_of_le hge with heq | hgt
      · rw [← heq]
        simp [sigmoidBackwardF, F64.fdiv, F64.ln, F64.neg, F64.isFinite]
      · have hq : (1 - x) / x < 0 := div_neg_of_neg_of_pos (by linarith) hpos
        simp [sigmoidBackwardF, F64.fdiv, F64.ln, F64.neg, F64.isFinite, hpos.ne', hq]

theorem sigmoid_backward_spec_witness :
    ActivationFn.sigmoid.forward (ActivationFn.sigmoid.backward (1 / 2)) = 1 / 2 ∧
    (sigmoidBackwardF 2).isFinite = false :=
  ⟨((sigmoid_backward_spec (1 / 2)).2.1 (by norm_num) (by norm_num)).2,
   (sigmoid_backward_spec 2).2.2 (by norm_num)⟩

theorem getD_mem {α : Type} {l : List α} {i : Nat} (h : i < l.length) (d : α) :
    l.getD i d ∈ l := by
  rw [List.getD_eq_getElem?_getD, List.getElem?_eq_getElem h]
  exact List.getElem_mem h

theorem ioAt_length (net : Network NUM_IN NUM_OUT) (input : List ℝ)
    (hc : chainWF NUM_IN net.layers NUM_OUT) (hin : input.length = NUM_IN)
    {m : Nat} (hm : m ≤ net.layers.length) :
    (ioAt net input m).length = widthAt NUM_IN net.layers m :=
  fwio_widths hc hin m hm

theorem last_biases_length (net : Network NUM_IN NUM_OUT) (hne : net.layers ≠ [])
    (hc : chainWF NUM_IN net.layers NUM_OUT) :
    (net.layers.getD (net.layers.length - 1) default).biases.length = NUM_OUT := by
  have h := chainWF_last hc
  rw [← Nat.succ_pred_eq_of_pos (List.length_pos.mpr hne)] at h
  simpa [widthAt] using h

theorem layerAccessOk_of_WF (net : Network NUM_IN NUM_OUT) (input : List ℝ)
    (hc : chainWF NUM_IN net.layers NUM_OUT) (hin : input.length = NUM_IN)
    {m : Nat} (hm : m < net.layers.length) :
    layerAccessOk (net.layers.getD m default) (ioAt net input m) := by
  have hWFm := chainWF_layerWF hc m hm
  refine ⟨le_of_eq hWFm.1, ?_⟩
  intro j hj
  rw [ioAt_length net input hc hin (le_of_lt hm),
    hWFm.2.2 _ (getD_mem hj [])]

/-- C10: under the shape invariants, every vector/matrix index performed by
`forward`, `forward_with_intermediate_outputs` and `backpropagate` is in
bounds, so none of these operations can reach an out-of-bounds (panic)
branch. -/
theorem accesses_in_bounds (net : Network NUM_IN NUM_OUT) (input target : List ℝ)
    (lr : ℝ) (hWF : net.WF) (hin : input.length = NUM_IN)
    (htg : target.length = NUM_OUT) :
    forwardAccessOk net input ∧ fwioAccessOk net input ∧
      backpropAccessOk net input target lr := by
  obtain ⟨hne, hc⟩ := hWF
  have hL1 : 1 ≤ net.layers.length := List.length_pos.mpr hne
  refine ⟨⟨hL1, ?_, ?_, ?_⟩, ?_, hL1, ?_, ?_, ?_⟩
  · intro m hm
    exact layerAccessOk_of_WF net input hc hin (by omega)
  · rw [(chainWF_layerWF hc (net.layers.length - 1) (by omega)).1,
      last_biases_length net hne hc]
  · exact layerAccessOk_of_WF net input hc hin (by omega)
  · intro m hm
    exact layerAccessOk_of_WF net input hc hin hm
  · exact le_of_eq (fwio_last_length net input ⟨hne, hc⟩ hin).symm
  · rw [backwardPass_deltas_length]
  · intro i hi
    have hWFi := chainWF_layerWF hc i hi
    have hwidth : widthAt NUM_IN net.layers (i + 1) =
        (net.layers.getD i default).biases.length := rfl
    refine ⟨?_, le_of_eq hWFi.1.symm, ?_, ?_, ?_, ?_⟩
    · rw [hWFi.1]
      exact hWFi.2.1
    · rw [ioAt_length net input hc hin (by omega), hwidth]
    · unfold gradLenAt
      by_cases hlast : i = net.layers.length - 1
      · rw [if_pos hlast]
        subst hlast
        exact le_of_eq (last_biases_length net hne hc)
      · rw [if_neg hlast]
        have hi1 : i + 1 < net.layers.length := by omega
        have hWFi1 := chainWF_layerWF hc (i + 1) hi1
        have h0 : 0 < (net.layers.getD (i + 1) default).weights.length := by
          rw [hWFi1.1]
          exact hWFi1.2.1
        rw [hWFi1.2.2 _ (getD_mem h0 []), hwidth]
    · intro j hj
      have hjw : j < (net.layers.getD i default).weights.length := by
        rw [hWFi.1]
        exact hj
      rw [ioAt_length net input hc hin (le_of_lt hi),
        hWFi.2.2 _ (getD_mem hjw [])]
    · intro h0i j hj
      have hjw : j < (net.layers.getD i default).weights.length := by
        rw [hWFi.1]
        exact hj
      have h0w : 0 < (net.layers.getD i default).weights.length := by
        rw [hWFi.1]
        exact hWFi.2.1
      rw [hWFi.2.2 _ (getD_mem hjw []), hWFi.2.2 _ (getD_mem h0w [])]

theorem accesses_in_bounds_witness :
    forwardAccessOk netId [1] ∧ fwioAccessOk netId [1] ∧
      backpropAccessOk netId [1] [0] 1 :=
  accesses_in_bounds netId [1] [0] 1
    ⟨by simp [netId, netWB], by simp [netId, netWB, chainWF, Layer.WF]⟩
    (by simp) (by simp)

/-- Over the real-number model, the sigmoid output lies strictly between 0
and 1 (this does not decide the corresponding IEEE-754 rounding claim). -/
theorem sigmoid_forward_pos_lt_one (x : ℝ) :
    0 < ActivationFn.sigmoid.forward x ∧ ActivationFn.sigmoid.forward x < 1 := by
  have he : 0 < Real.exp (-x) := Real.exp_pos _
  constructor
  · exact div_pos one_pos (by linarith)
  · rw [show ActivationFn.sigmoid.forward x = 1 / (1 + Real.exp (-x)) from rfl,
      div_lt_one (by linarith)]
    linarith

/-- The sigmoid derivative applied to the activated value is, by definition,
that value times one minus that value. -/
theorem sigmoid_derivative_on_activated (x : ℝ) :
    ActivationFn.sigmoid.derivative (ActivationFn.sigmoid.forward x) =
      ActivationFn.sigmoid.forward x * (1 - ActivationFn.sigmoid.forward x) := rfl

end FFNN
